import Mathlib

/-!
Shallow embedding of the wordcloud-generator repository
(`wordcloud_generator.py` and `wordcloud_languages.py`) and proofs about it.

Strings are modelled as `String` / `List Char`; the embedding is faithful for
ASCII text (the scripts themselves only special-case ASCII: `[a-zA-Z]` in the
word regex, ASCII lowercasing for the allow-listed extensions).
-/

namespace Wordcloud

/-- ASCII alphabetic character, i.e. what the regex class `[a-zA-Z]` matches. -/
def isAsciiAlpha (c : Char) : Bool :=
  (65 ≤ c.toNat && c.toNat ≤ 90) || (97 ≤ c.toNat && c.toNat ≤ 122)

/-- ASCII digit `0`-`9`. -/
def isAsciiDigit (c : Char) : Bool :=
  48 ≤ c.toNat && c.toNat ≤ 57

/-- A regex word character (`\w`) over ASCII: letter, digit or underscore.
The `\b` assertions of the word regex test membership in this set. -/
def isWordChar (c : Char) : Bool :=
  isAsciiAlpha c || isAsciiDigit c || c == '_'

/-- ASCII lowercasing of one character, as Python's `str.lower` does on
ASCII input: `A`-`Z` maps to `a`-`z`, everything else is unchanged. -/
def pyLower (c : Char) : Char :=
  if 65 ≤ c.toNat ∧ c.toNat ≤ 90 then Char.ofNat (c.toNat + 32) else c

/-- State of the left-to-right scan performed by
`re.findall(r"\b[a-zA-Z]{2,}\b", content)`:
either between match attempts (`idle`, recording whether the previous
character was a non-word character or the start of the string, i.e. whether
a `\b` assertion holds here), or inside a run of ASCII letters (`run`,
holding the letters seen so far in reverse). -/
inductive ReState : Type where
  | idle (atBoundary : Bool) : ReState
  | run (acc : List Char) : ReState
deriving DecidableEq

/-- The scan of `re.findall(r"\b[a-zA-Z]{2,}\b", content)`, one character at
a time.  A match must start at a word boundary, consume a maximal run of
ASCII letters (a proper sub-run cannot end at a `\b`), have length at least
2, and end at a word boundary (end of string or a non-word character). -/
def reScan : ReState → List Char → List String
  | ReState.idle _, [] => []
  | ReState.run acc, [] =>
      if 2 ≤ acc.length then [String.mk acc.reverse] else []
  | ReState.idle atB, c :: rest =>
      if atB && isAsciiAlpha c then reScan (ReState.run [c]) rest
      else reScan (ReState.idle (!isWordChar c)) rest
  | ReState.run acc, c :: rest =>
      if isAsciiAlpha c then reScan (ReState.run (c :: acc)) rest
      else if isWordChar c then reScan (ReState.idle false) rest
      else if 2 ≤ acc.length then
        String.mk acc.reverse :: reScan (ReState.idle true) rest
      else reScan (ReState.idle true) rest

/-- `re.findall(r"\b[a-zA-Z]{2,}\b", content.lower())` from
`collect_words` (wordcloud_generator.py line 98). -/
def extractWords (content : List Char) : List String :=
  reScan (ReState.idle true) (content.map pyLower)

/-- Modelled from the spec: accumulate the maximal runs of ASCII alphabetic
characters, keeping those of length at least 2 (`acc` is the current run in
reverse).  Spec 4.4: "lowercases the content, and extracts all maximal runs
of alphabetic ASCII characters of length ≥2 as words". -/
def specScan (acc : List Char) : List Char → List String
  | [] => if 2 ≤ acc.length then [String.mk acc.reverse] else []
  | c :: rest =>
      if isAsciiAlpha c then specScan (c :: acc) rest
      else if 2 ≤ acc.length then String.mk acc.reverse :: specScan [] rest
      else specScan [] rest

/-- Modelled from the spec: lowercase the content and return exactly the
maximal runs of ASCII alphabetic characters of length ≥ 2, in order. -/
def specWords (content : List Char) : List String :=
  specScan [] (content.map pyLower)

/-! ## Shell-glob matching (`fnmatch.fnmatch`)

Both scripts match path components against the exclusion patterns with
`fnmatch.fnmatch` (POSIX, so `normcase` is the identity): `*` matches any
sequence, `?` any single character, `[...]`/`[!...]` a (negated) character
class with ranges, a `]` right after the opening bracket is a literal `]`,
and an unterminated `[` is a literal `[`.  Everything else matches itself,
and the whole name must be consumed. -/

/-- Does one character belong to the body of a character class?  The body is
a list of literal characters and `a-b` ranges (a trailing or leading `-` is a
literal `-`). -/
def classMatch : List Char → Char → Bool
  | [], _ => false
  | a :: '-' :: b :: rest, c => (a ≤ c && c ≤ b) || classMatch rest c
  | a :: rest, c => (a == c) || classMatch rest c

/-- Split the pattern text following a `[` into (negated?, class body,
remainder of the pattern after the closing `]`); `none` when the class is
unterminated (the `[` is then a literal). A `!` right after `[` negates, and
a `]` in the first body position is a literal `]`. -/
def splitBracket (ps : List Char) : Option (Bool × List Char × List Char) :=
  let q := match ps with
    | '!' :: t => (true, t)
    | _ => (false, ps)
  match q.2 with
  | ']' :: t =>
      match t.dropWhile (fun c => c != ']') with
      | [] => none
      | _ :: rest => some (q.1, ']' :: t.takeWhile (fun c => c != ']'), rest)
  | other =>
      match other.dropWhile (fun c => c != ']') with
      | [] => none
      | _ :: rest => some (q.1, other.takeWhile (fun c => c != ']'), rest)

/-- Fueled glob matcher: `globMatchF fuel pattern name`.  Every recursive
call strictly decreases `pattern.length + name.length`, so any fuel above
that sum computes the true result. -/
def globMatchF : Nat → List Char → List Char → Bool
  | 0, _, _ => false
  | _ + 1, [], name => name.isEmpty
  | fuel + 1, '*' :: ps, name =>
      globMatchF fuel ps name ||
        (match name with
         | [] => false
         | _ :: ns => globMatchF fuel ('*' :: ps) ns)
  | fuel + 1, '?' :: ps, name =>
      (match name with
       | [] => false
       | _ :: ns => globMatchF fuel ps ns)
  | fuel + 1, '[' :: ps, name =>
      (match splitBracket ps with
       | none =>
           match name with
           | [] => false
           | c :: ns => c == '[' && globMatchF fuel ps ns
       | some (neg, body, rest) =>
           match name with
           | [] => false
           | c :: ns => (classMatch body c != neg) && globMatchF fuel rest ns)
  | fuel + 1, p :: ps, name =>
      (match name with
       | [] => false
       | c :: ns => p == c && globMatchF fuel ps ns)

/-- `fnmatch.fnmatch(name, pattern)` on POSIX. -/
def fnmatchB (name pattern : String) : Bool :=
  globMatchF (pattern.toList.length + name.toList.length + 1)
    pattern.toList name.toList

/-! ## Path handling

`should_exclude` uses `pathlib.Path(path).parts` and
`os.path.basename(path)`; the walkers build paths with `os.path.join`.
Paths are POSIX strings with separator `/`. -/

/-- Split a character list on `/`, keeping empty fields (the raw fields of
the path, as `path.split('/')` would produce). -/
def splitSegs : List Char → List (List Char)
  | [] => [[]]
  | c :: rest =>
      match splitSegs rest with
      | [] => [[]]
      | s :: ss => if c = '/' then [] :: s :: ss else (c :: s) :: ss

/-- `os.path.basename(path)`: the text after the final `/`, i.e. the last
raw field of splitting on the separator. -/
def basename (path : String) : String :=
  String.mk ((splitSegs path.toList).getLastD [])

/-- `pathlib.Path(path).parts`: an optional root (`/`, or `//` for the
POSIX double-slash special case), followed by the non-empty fields of the
path with the spurious `.` components dropped. -/
def pathParts (path : String) : List String :=
  let cs := path.toList
  let segs := ((splitSegs cs).map String.mk).filter
    (fun s => !(s == "") && !(s == "."))
  let slashes := (cs.takeWhile (fun c => c = '/')).length
  let root : List String :=
    if slashes = 0 then [] else if slashes = 2 then ["//"] else ["/"]
  root ++ segs

/-- `os.path.join(root, name)` for a single extra component (posixpath):
an absolute `name` replaces `root`; otherwise they are glued with `/`
unless `root` is empty or already ends with the separator. -/
def pathJoin (root name : String) : String :=
  if name.toList.head? = some '/' then name
  else if root = "" ∨ root.toList.getLast? = some '/' then root ++ name
  else root ++ "/" ++ name

/-- `should_exclude(path, exclude_patterns)` (wordcloud_generator.py lines
27-38 and identically wordcloud_languages.py lines 78-87): some pattern
matches some part of `Path(path).parts`, or matches
`os.path.basename(path)`. -/
def should_exclude (path : String) (exclude_patterns : List String) : Bool :=
  exclude_patterns.any fun pattern =>
    (pathParts path).any (fun part => fnmatchB part pattern) ||
      fnmatchB (basename path) pattern

/-- Modelled from the spec (claim C8 wording): "some path segment
glob-matches some pattern" — the same test without the extra basename
check. -/
def segmentsMatch (path : String) (exclude_patterns : List String) : Bool :=
  exclude_patterns.any fun pattern =>
    (pathParts path).any (fun part => fnmatchB part pattern)

/-! ## Pattern loader (`load_exclude_patterns`)

The file system is abstracted as `Option (List String)`: `none` when
`os.path.exists` is false, otherwise the list of lines (already split; the
`strip` removes the trailing newline the file iterator would keep). -/

/-- Python `str.strip()` whitespace, for ASCII text: space and the
control characters 9-13 (`\t`, `\n`, VT, FF, `\r`). -/
def isPySpace (c : Char) : Bool :=
  c == ' ' || (9 ≤ c.toNat && c.toNat ≤ 13)

/-- Python `str.strip()`: drop leading and trailing whitespace. -/
def pyStrip (s : String) : String :=
  String.mk (((s.toList.dropWhile isPySpace).reverse.dropWhile isPySpace).reverse)

/-- `line.startswith("#")`. -/
def hashStart (s : String) : Bool :=
  match s.toList with
  | [] => false
  | c :: _ => c == '#'

/-- The accumulation loop of `load_exclude_patterns`: strip each line and
append it when it is non-empty and not a `#` comment. -/
def loadLoop : List String → List String
  | [] => []
  | line :: rest =>
      let s := pyStrip line
      if s ≠ "" ∧ ¬ hashStart s = true then s :: loadLoop rest else loadLoop rest

/-- `load_exclude_patterns` (wordcloud_generator.py lines 15-24 and
identically wordcloud_languages.py lines 66-75): an absent file yields no
patterns, an existing one is folded through the loop above. -/
def load_exclude_patterns (file : Option (List String)) : List String :=
  match file with
  | none => []
  | some lines => loadLoop lines

/-! ## Stopword filtering (`filter_stopwords`)

The NLTK English stopword set is external data (downloaded at run time), so
it is a parameter.  A frequency table (`collections.Counter` /
`dict`) is an association list from word to count, in insertion order. -/

/-- The hand-maintained `programming_keywords` set of `filter_stopwords`
(wordcloud_generator.py lines 127-201), verbatim, in source order. -/
def programming_keywords : List String :=
  ["var", "let", "const", "def", "class", "return", "import", "function",
   "if", "else", "elif", "then", "end", "do", "while", "for", "try",
   "catch", "finally", "throw", "new", "this", "self", "super", "true",
   "false", "none", "null", "undefined", "void", "public", "private",
   "protected", "static", "final", "abstract", "interface", "extends",
   "implements", "package", "namespace", "using", "include", "define",
   "ifdef", "endif", "extern", "typeof", "instanceof", "async", "await",
   "yield", "lambda", "del", "pass", "break", "continue", "raise",
   "except", "assert", "switch", "case", "default", "goto", "struct",
   "enum", "union", "typedef", "sizeof", "const", "volatile", "inline",
   "virtual"]

/-- `filter_stopwords` (wordcloud_generator.py lines 203-206): the applied
set is `all_stopwords = english_stopwords` — the `programming_keywords`
set is deliberately NOT united in (the union is commented out in the
source) — and the dict comprehension keeps exactly the entries whose word
is not in `all_stopwords`. -/
def filter_stopwords (english_stopwords : List String)
    (word_counts : List (String × Nat)) : List (String × Nat) :=
  let all_stopwords := english_stopwords
  word_counts.filter fun p => decide (p.1 ∉ all_stopwords)

/-! ## The directory tree

`os.walk` input, as a tree: a directory holds a list of files (in the order
the OS reports them) and a list of named subdirectories.  A file carries
`some content` when it can be read, `none` when opening/reading it raises
(permission error, etc.).  The directory/`subdirectory-list` pair is fused
into the single inductive `Fs` (a directory node `dir files subs`, and the
subdirectory list built from `dnil`/`dcons`), so that the walkers are plain
structural recursions. -/

/-- A directory entry for a regular file. -/
structure FileEnt : Type where
  name : String
  data : Option (List Char)
deriving DecidableEq

/-- A directory tree: `dir files subs` is a directory with its files and
its subdirectory list; `dnil` and `dcons name d rest` build the
subdirectory list. -/
inductive Fs : Type where
  | dir : List FileEnt → Fs → Fs
  | dnil : Fs
  | dcons : String → Fs → Fs → Fs
deriving DecidableEq

/-! ## Word pipeline (`collect_words`) -/

/-- The `text_extensions` allow-list of `collect_words`
(wordcloud_generator.py lines 44-69), verbatim. -/
def text_extensions : List String :=
  [".py", ".js", ".ts", ".tsx", ".jsx", ".java", ".go", ".cs", ".cpp",
   ".c", ".h", ".md", ".txt", ".html", ".css", ".json", ".yaml", ".yml",
   ".sh", ".rs", ".rb", ".php", ".scala", ".kt"]

/-- `any(file.endswith(ext) for ext in text_extensions)`: a case-sensitive
suffix test of the whole filename against each allow-listed extension. -/
def isTextFile (file : String) : Bool :=
  text_extensions.any fun ext => ext.toList.isSuffixOf file.toList

/-- Accumulated state of `collect_words`: the flat word list and the
`files_processed` / `files_skipped` counters. -/
structure WordAcc : Type where
  words : List String
  processed : Nat
  skipped : Nat
deriving DecidableEq

/-- One iteration of the file loop of `collect_words` (wordcloud_generator.py
lines 82-102): an excluded file bumps `files_skipped`; a non-text file is
silently ignored; a readable text file contributes its words and bumps
`files_processed`; an unreadable text file only prints a warning (caught
exception), leaving the accumulator unchanged. -/
def wordFile (pats : List String) (root : String) (acc : WordAcc)
    (fe : FileEnt) : WordAcc :=
  let filepath := pathJoin root fe.name
  if should_exclude filepath pats then
    { acc with skipped := acc.skipped + 1 }
  else if !isTextFile fe.name then acc
  else
    match fe.data with
    | some content =>
        { acc with words := acc.words ++ extractWords content,
                   processed := acc.processed + 1 }
    | none => acc

/-- The `os.walk` recursion of `collect_words` (wordcloud_generator.py
lines 74-102): at a directory, run the file loop on the files of the
current `root`, then walk the subdirectory list; an excluded subdirectory
is pruned from `dirs[:]`, so the walk never enters it; a kept subdirectory
is walked under the joined root. -/
def wordsWalk (pats : List String) : Fs → String → WordAcc → WordAcc
  | Fs.dir files subs => fun root acc =>
      wordsWalk pats subs root (files.foldl (wordFile pats root) acc)
  | Fs.dnil => fun _root acc => acc
  | Fs.dcons n d rest => fun root acc =>
      if should_exclude (pathJoin root n) pats then
        wordsWalk pats rest root acc
      else
        wordsWalk pats rest root (wordsWalk pats d (pathJoin root n) acc)

/-- `collect_words(base_dir, exclude_patterns)` over a modelled tree. -/
def collect_words (pats : List String) (base_dir : String) (tree : Fs) :
    WordAcc :=
  wordsWalk pats tree base_dir ⟨[], 0, 0⟩

/-! ## Language pipeline (`collect_languages`) -/

/-- `LANGUAGE_MAP` (wordcloud_languages.py lines 14-63), verbatim, in
source order: lowercase extension to display label. -/
def LANGUAGE_MAP : List (String × String) :=
  [(".py", "Python"), (".js", "JavaScript"), (".ts", "TypeScript"),
   (".tsx", "TypeScript"), (".jsx", "JavaScript"), (".java", "Java"),
   (".go", "Go"), (".rs", "Rust"), (".c", "C"), (".cpp", "C++"),
   (".cc", "C++"), (".cxx", "C++"), (".h", "C"), (".hpp", "C++"),
   (".cs", "C#"), (".rb", "Ruby"), (".php", "PHP"), (".swift", "Swift"),
   (".kt", "Kotlin"), (".scala", "Scala"), (".r", "R"),
   (".m", "Objective-C"), (".sh", "Shell"), (".bash", "Bash"),
   (".pl", "Perl"), (".lua", "Lua"), (".vim", "VimScript"),
   (".el", "Emacs-Lisp"), (".clj", "Clojure"), (".ex", "Elixir"),
   (".erl", "Erlang"), (".hs", "Haskell"), (".ml", "OCaml"),
   (".sql", "SQL"), (".dockerfile", "Docker"), (".tf", "Terraform"),
   (".yaml", "YAML"), (".yml", "YAML"), (".json", "JSON"),
   (".xml", "XML"), (".html", "HTML"), (".css", "CSS"),
   (".scss", "SCSS"), (".sass", "Sass"), (".less", "Less"),
   (".md", "Markdown"), (".rst", "reStructuredText"), (".tex", "LaTeX")]

/-- The extension part of `os.path.splitext(name)` for a bare filename
(no separators): everything from the last dot on, except that a dot with
only dots before it begins no extension (so `.py` has no extension). -/
def splitextExt (cs : List Char) : List Char :=
  let r := cs.reverse
  match r.dropWhile (fun c => c != '.') with
  | [] => []
  | _ :: stemRev =>
      if stemRev.any (fun c => c != '.') then
        '.' :: (r.takeWhile (fun c => c != '.')).reverse
      else []

/-- `os.path.splitext(file)[1].lower()` (wordcloud_languages.py line 109). -/
def lowerExt (file : String) : String :=
  String.mk ((splitextExt file.toList).map pyLower)

/-- Accumulated state of `collect_languages`: the `Counter` of language
labels, the `files_by_language` dict (label to recorded file paths), and
the `files_processed` / `files_skipped` counters. -/
structure LangAcc : Type where
  counts : List (String × Nat)
  filesBy : List (String × List String)
  processed : Nat
  skipped : Nat
deriving DecidableEq

/-- `language_counts[language] += 1` on a `Counter`: bump the existing
entry (first occurrence) or append the label with count 1. -/
def bump : List (String × Nat) → String → List (String × Nat)
  | [], k => [(k, 1)]
  | (k', v) :: rest, k =>
      if k' = k then (k', v + 1) :: rest else (k', v) :: bump rest k

/-- `files_by_language.setdefault`-style update of the source (lines
116-118): append the path to the label's list, creating the entry first
when the label is new. -/
def addFile : List (String × List String) → String → String →
    List (String × List String)
  | [], k, fp => [(k, [fp])]
  | (k', fs) :: rest, k, fp =>
      if k' = k then (k', fs ++ [fp]) :: rest
      else (k', fs) :: addFile rest k fp

/-- One iteration of the file loop of `collect_languages`
(wordcloud_languages.py lines 101-120): an excluded file bumps
`files_skipped`; a file whose lowercased extension is a `LANGUAGE_MAP` key
bumps that label's count, records the path and bumps `files_processed`;
any other file changes nothing. -/
def langFile (pats : List String) (root : String) (acc : LangAcc)
    (fe : FileEnt) : LangAcc :=
  let filepath := pathJoin root fe.name
  if should_exclude filepath pats then
    { acc with skipped := acc.skipped + 1 }
  else
    match LANGUAGE_MAP.lookup (lowerExt fe.name) with
    | some language =>
        { counts := bump acc.counts language,
          filesBy := addFile acc.filesBy language filepath,
          processed := acc.processed + 1,
          skipped := acc.skipped }
    | none => acc

/-- The `os.walk` recursion of `collect_languages` (wordcloud_languages.py
lines 98-120), shaped exactly like `wordsWalk` but with the language file
loop. -/
def langWalk (pats : List String) : Fs → String → LangAcc → LangAcc
  | Fs.dir files subs => fun root acc =>
      langWalk pats subs root (files.foldl (langFile pats root) acc)
  | Fs.dnil => fun _root acc => acc
  | Fs.dcons n d rest => fun root acc =>
      if should_exclude (pathJoin root n) pats then
        langWalk pats rest root acc
      else
        langWalk pats rest root (langWalk pats d (pathJoin root n) acc)

/-- `collect_languages(base_dir, exclude_patterns)` over a modelled tree. -/
def collect_languages (pats : List String) (base_dir : String)
    (tree : Fs) : LangAcc :=
  langWalk pats tree base_dir ⟨[], [], 0, 0⟩

/-! ## Visited file occurrences

For the pruning claim we record which file occurrences the per-file loop of
the walkers ever examines.  An occurrence is identified by the chain of
subdirectory names from the base to its directory, plus its filename (chains
rather than joined path strings, since two files at different tree positions
could render to the same string).  The structure mirrors the walkers: the
files of the current directory are all examined, and an excluded
subdirectory is not entered at all. -/

/-- The file occurrences the walkers visit, mirroring the walk: every file
of the current directory (chain `[]`), then the occurrences under the
non-excluded subdirectories with the subdirectory name prepended to the
chain; an excluded subdirectory contributes nothing at all. -/
def visitedWalk (pats : List String) : Fs → String → List (List String × String)
  | Fs.dir files subs => fun root =>
      files.map (fun fe => (([] : List String), fe.name)) ++
        visitedWalk pats subs root
  | Fs.dnil => fun _root => []
  | Fs.dcons n d rest => fun root =>
      (if should_exclude (pathJoin root n) pats then []
       else (visitedWalk pats d (pathJoin root n)).map
         (fun q => (n :: q.1, q.2))) ++
        visitedWalk pats rest root

/-- Join a chain of directory names onto a base path. -/
def chainPath (root : String) (ns : List String) : String :=
  ns.foldl pathJoin root

/-! ## The language-count invariant (C9) -/

/-- Total of all counts in a frequency table. -/
def sumCounts (m : List (String × Nat)) : Nat := (m.map Prod.snd).sum

/-- The invariant of the `collect_languages` aggregation state: the
processed counter equals the total of the language counts, the counter map
and the recorded-files map list the same keys in the same order, and each
language's count is the number of file paths recorded for it. -/
def LangInv (acc : LangAcc) : Prop :=
  acc.processed = sumCounts acc.counts ∧
    acc.counts.map Prod.fst = acc.filesBy.map Prod.fst ∧
    ∀ L, acc.counts.lookup L = (acc.filesBy.lookup L).map List.length

/-! ## General helper lemmas -/

theorem anyCongr {α : Type} {f g : α → Bool} :
    ∀ {l : List α}, (∀ a ∈ l, f a = g a) → l.any f = l.any g
  | [], _ => rfl
  | a :: l, h => by
      simp only [List.any_cons]
      rw [h a (List.mem_cons_self a l), anyCongr fun b hb => h b (List.mem_cons_of_mem a hb)]

theorem toNat_ofNat_valid (n : Nat) (h : n.isValidChar) :
    (Char.ofNat n).toNat = n := by
  simp [Char.ofNat, Char.ofNatAux, Char.toNat, h, UInt32.toNat]

/-- Association-list lookup at a cons cell, phrased with a propositional
test on the key. -/
theorem lookup_cons {β : Type} (a k : String) (v : β) (l : List (String × β)) :
    ((a, v) :: l).lookup k = if k = a then some v else l.lookup k := by
  by_cases h : k = a
  · subst h; simp [List.lookup]
  · have hb : (k == a) = false := by simp [h]
    simp [List.lookup, hb, h]

/-! ## Word extraction: the regex scan against the spec's maximal runs -/

/-- On a character that is neither an ASCII digit nor an underscore,
lowercasing yields a character that is a word character exactly when it is
an ASCII letter. -/
theorem pyLower_wordChar (c : Char) (hd : isAsciiDigit c = false)
    (hu : c ≠ '_') : isWordChar (pyLower c) = isAsciiAlpha (pyLower c) := by
  unfold pyLower
  by_cases h : 65 ≤ c.toNat ∧ c.toNat ≤ 90
  · rw [if_pos h]
    have hv : (c.toNat + 32).isValidChar := Or.inl (by omega)
    have ht : (Char.ofNat (c.toNat + 32)).toNat = c.toNat + 32 :=
      toNat_ofNat_valid _ hv
    have ha : isAsciiAlpha (Char.ofNat (c.toNat + 32)) = true := by
      simp only [isAsciiAlpha, ht, Bool.or_eq_true, Bool.and_eq_true,
        decide_eq_true_eq]
      omega
    simp [isWordChar, ha]
  · rw [if_neg h]
    have hu' : (c == '_') = false := by simp [hu]
    simp [isWordChar, hd, hu']

/-- On content whose characters are word characters exactly when they are
ASCII letters, the regex scan agrees with the plain maximal-run scan, from
any reachable pair of states. -/
theorem reScan_eq_specScan :
    ∀ l : List Char, (∀ c ∈ l, isWordChar c = isAsciiAlpha c) →
      (reScan (ReState.idle true) l = specScan [] l) ∧
        ∀ acc, reScan (ReState.run acc) l = specScan acc l := by
  intro l
  induction l with
  | nil => exact fun _ => ⟨rfl, fun acc => rfl⟩
  | cons c rest ih =>
      intro h
      have hc : isWordChar c = isAsciiAlpha c := h c (List.mem_cons_self c rest)
      have ihr := ih fun b hb => h b (List.mem_cons_of_mem c hb)
      by_cases hα : isAsciiAlpha c = true
      · constructor
        · simp only [reScan, specScan, hα, Bool.and_true, if_pos]
          exact ihr.2 [c]
        · intro acc
          simp only [reScan, specScan, hα, if_pos]
          exact ihr.2 (c :: acc)
      · have hα' : isAsciiAlpha c = false := by
          cases hb : isAsciiAlpha c
          · rfl
          · exact absurd hb hα
        have hw : isWordChar c = false := hc.trans hα'
        constructor
        · simp only [reScan, specScan, hα', hw, Bool.and_false, Bool.not_false,
            if_neg, Bool.false_eq_true, not_false_iff]
          have : ¬ (2 ≤ ([] : List Char).length) := by simp
          rw [if_neg this]
          exact ihr.1
        · intro acc
          simp only [reScan, specScan, hα', hw, Bool.false_eq_true, if_neg,
            not_false_iff]
          by_cases h2 : 2 ≤ acc.length
          · rw [if_pos h2, if_pos h2, ihr.1]
          · rw [if_neg h2, if_neg h2, ihr.1]

/-- C1 (counterexample): word extraction is NOT "exactly the maximal runs of
alphabetic ASCII characters of length ≥ 2": on the content `abc123` the
spec's reading yields `[abc]`, but the regex `\b[a-zA-Z]{2,}\b` finds
nothing, because the `\b` between `c` and `1` fails (both are word
characters); likewise `foo_bar` yields nothing instead of `[foo, bar]`. -/
theorem claim1_counterexample :
    extractWords ("abc123".toList) = [] ∧
      specWords ("abc123".toList) = ["abc"] ∧
      extractWords ("foo_bar".toList) = [] ∧
      specWords ("foo_bar".toList) = ["foo", "bar"] := by decide

/-- C1 (amended): word extraction lowercases the content, and on ASCII
content containing no digits and no underscores it returns exactly the
maximal runs of alphabetic ASCII characters of length ≥ 2, in order of
appearance; a maximal alphabetic run adjacent to a digit or underscore is
discarded entirely by the word-boundary anchors. -/
theorem claim1_extraction (content : List Char)
    (h : ∀ c ∈ content, c.toNat < 128 ∧ isAsciiDigit c = false ∧ c ≠ '_') :
    extractWords content = specWords content := by
  unfold extractWords specWords
  refine (reScan_eq_specScan (content.map pyLower) ?_).1
  intro c hc
  obtain ⟨a, ha, rfl⟩ := List.mem_map.1 hc
  exact pyLower_wordChar a (h a ha).2.1 (h a ha).2.2

/-- Witness for `claim1_extraction`, at the spec's own scenario content
`def foo(): return foo`. -/
theorem claim1_extraction_witness :
    extractWords ("def foo(): return foo".toList) =
      specWords ("def foo(): return foo".toList) :=
  claim1_extraction ("def foo(): return foo".toList) (by decide)

/-- C3: filtering a frequency table by a stopword set removes exactly the
keys in the set: looking up any word in the filtered table gives nothing
when the word is a stopword, and the unchanged original count otherwise
(in particular no new keys appear). -/
theorem claim3_filter (S : List String) (T : List (String × Nat)) (k : String) :
    (filter_stopwords S T).lookup k = if k ∈ S then none else T.lookup k := by
  induction T with
  | nil =>
      simp only [filter_stopwords, List.filter_nil, List.lookup_nil]
      split <;> rfl
  | cons p rest ih =>
      obtain ⟨a, v⟩ := p
      simp only [filter_stopwords] at ih ⊢
      by_cases hS : a ∈ S
      · rw [List.filter_cons_of_neg (by simpa using hS), ih, lookup_cons]
        by_cases hk : k = a
        · subst hk; rw [if_pos hS, if_pos hS]
        · rw [if_neg hk]
      · rw [List.filter_cons_of_pos (by simpa using hS), lookup_cons,
          lookup_cons]
        by_cases hk : k = a
        · subst hk
          rw [if_pos rfl, if_pos rfl, if_neg hS]
        · rw [if_neg hk, if_neg hk, ih]

/-- C5: the hand-maintained programming-keyword set (which contains `def`
and `return`) is not applied: an entry survives stopword filtering exactly
when its key is not an English stopword, regardless of membership in
`programming_keywords`. -/
theorem claim5_keywords_inert :
    "def" ∈ programming_keywords ∧ "return" ∈ programming_keywords ∧
      ∀ (E : List String) (T : List (String × Nat)) (k : String) (c : Nat),
        k ∈ programming_keywords →
          ((k, c) ∈ filter_stopwords E T ↔ (k, c) ∈ T ∧ k ∉ E) := by
  refine ⟨by decide, by decide, ?_⟩
  intro E T k c _
  simp [filter_stopwords, List.mem_filter]

/-- Witness for `claim5_keywords_inert`: with the English stopword set
`[the]`, the keyword entry `(def, 3)` is kept by the filter. -/
theorem claim5_keywords_inert_witness :
    ("def", 3) ∈ filter_stopwords ["the"] [("def", 3)] :=
  (claim5_keywords_inert.2.2 ["the"] [("def", 3)] "def" 3 (by decide)).mpr
    ⟨by decide, by decide⟩

/-- C7: the pattern loader returns no patterns for an absent file, and for
an existing file returns exactly the stripped lines, in order, omitting
those that are empty after stripping and those that begin with `#`. -/
theorem claim7_loader :
    load_exclude_patterns none = [] ∧
      ∀ lines, load_exclude_patterns (some lines) =
        (lines.map pyStrip).filter fun s => !(s == "") && !hashStart s := by
  refine ⟨rfl, ?_⟩
  intro lines
  show loadLoop lines = _
  induction lines with
  | nil => rfl
  | cons l rest ih =>
      simp only [loadLoop, List.map_cons, List.filter_cons]
      by_cases h1 : pyStrip l = ""
      · simp [h1, ih]
      · cases h2 : hashStart (pyStrip l)
        · simp [h1, ih]
        · simp [ih]

/-- C10: the word pipeline's text-file test is a case-sensitive suffix test
on the whole filename: a file named exactly `.py` is a text file and is
processed, while `A.PY` is not and is silently ignored — even though the
language pipeline, which lowercases the computed extension, counts `A.PY`
as Python. -/
theorem claim10_suffix_test :
    isTextFile ".py" = true ∧ isTextFile "A.PY" = false ∧
      collect_words [] "repo"
          (Fs.dir [⟨".py", some ("hello world".toList)⟩] Fs.dnil) =
        ⟨["hello", "world"], 1, 0⟩ ∧
      collect_words [] "repo"
          (Fs.dir [⟨"A.PY", some ("hello world".toList)⟩] Fs.dnil) =
        ⟨[], 0, 0⟩ ∧
      (collect_languages [] "repo"
          (Fs.dir [⟨"A.PY", some ("hello world".toList)⟩] Fs.dnil)).counts =
        [("Python", 1)] := by decide

/-- C4: a non-excluded file whose lowercased extension is a `LANGUAGE_MAP`
key bumps the mapped label's count, records the path under that label and
bumps `files_processed`; a non-excluded file with an unrecognized extension
changes nothing at all; and the spec scenario `x.go, y.rs, z.unknown` with
no exclusions yields exactly the counts `{Go: 1, Rust: 1}` with 2 files
processed and 0 skipped. -/
theorem claim4_language_counts :
    (∀ pats root acc fe,
        should_exclude (pathJoin root fe.name) pats = false →
          (LANGUAGE_MAP.lookup (lowerExt fe.name) = none →
            langFile pats root acc fe = acc) ∧
          ∀ lang, LANGUAGE_MAP.lookup (lowerExt fe.name) = some lang →
            langFile pats root acc fe =
              ⟨bump acc.counts lang,
               addFile acc.filesBy lang (pathJoin root fe.name),
               acc.processed + 1, acc.skipped⟩) ∧
      collect_languages [] "repo"
          (Fs.dir [⟨"x.go", none⟩, ⟨"y.rs", none⟩, ⟨"z.unknown", none⟩]
            Fs.dnil) =
        ⟨[("Go", 1), ("Rust", 1)],
         [("Go", ["repo/x.go"]), ("Rust", ["repo/y.rs"])], 2, 0⟩ := by
  constructor
  · intro pats root acc fe hexc
    constructor
    · intro hnone
      simp [langFile, hexc, hnone]
    · intro lang hsome
      simp [langFile, hexc, hsome]
  · decide

/-- Witness for `claim4_language_counts`: the unrecognized `z.unknown` in
the scenario leaves the empty accumulator untouched. -/
theorem claim4_language_counts_witness :
    langFile [] "repo" ⟨[], [], 0, 0⟩ ⟨"z.unknown", none⟩ = ⟨[], [], 0, 0⟩ :=
  (claim4_language_counts.1 [] "repo" ⟨[], [], 0, 0⟩ ⟨"z.unknown", none⟩
    (by decide)).1 (by decide)

/-- C6: a read failure on a candidate file (a non-excluded file whose open
or read raises, modelled by `data = none`) only warns: it leaves the
accumulator of the file loop unchanged, and the whole walk returns exactly
what it returns on the same tree without that file — the words of all
other files, and the same counters. -/
theorem claim6_read_failure :
    ∀ pats root (fe : FileEnt), fe.data = none →
      should_exclude (pathJoin root fe.name) pats = false →
        (∀ acc, wordFile pats root acc fe = acc) ∧
        ∀ files1 files2 subs acc,
          wordsWalk pats (Fs.dir (files1 ++ fe :: files2) subs) root acc =
            wordsWalk pats (Fs.dir (files1 ++ files2) subs) root acc := by
  intro pats root fe hdata hexc
  have h1 : ∀ acc, wordFile pats root acc fe = acc := by
    intro acc
    simp only [wordFile, hexc, hdata, Bool.false_eq_true, if_false]
    split <;> rfl
  refine ⟨h1, ?_⟩
  intro files1 files2 subs acc
  simp only [wordsWalk, List.foldl_append, List.foldl_cons, h1]

/-- Witness for `claim6_read_failure`: an unreadable `bad.py` next to a
readable `a.py` changes nothing about the outcome. -/
theorem claim6_read_failure_witness :
    collect_words [] "repo"
        (Fs.dir [⟨"a.py", some ("hi there".toList)⟩, ⟨"bad.py", none⟩]
          Fs.dnil) =
      collect_words [] "repo"
        (Fs.dir [⟨"a.py", some ("hi there".toList)⟩] Fs.dnil) :=
  (claim6_read_failure [] "repo" ⟨"bad.py", none⟩ rfl (by decide)).2
    [⟨"a.py", some ("hi there".toList)⟩] [] Fs.dnil ⟨[], 0, 0⟩

/-! ## The basename check in `should_exclude` (C8) -/

theorem getLastD_mem {α : Type} (l : List α) (d : α) (h : l ≠ []) :
    l.getLastD d ∈ l := by
  rw [List.getLastD_eq_getLast?, List.getLast?_eq_getLast l h]
  exact List.getLast_mem h

theorem splitSegs_ne_nil : ∀ cs : List Char, splitSegs cs ≠ [] := by
  intro cs
  induction cs with
  | nil => simp [splitSegs]
  | cons c rest ih =>
      simp only [splitSegs]
      cases h : splitSegs rest with
      | nil => simp
      | cons s ss => by_cases hc : c = '/' <;> simp [hc]

/-- A path whose basename is neither empty nor `.` has its basename among
its `pathlib` parts (it is the final raw field, and the filter keeps it). -/
theorem basename_mem_pathParts (path : String) (h1 : basename path ≠ "")
    (h2 : basename path ≠ ".") : basename path ∈ pathParts path := by
  unfold basename at h1 h2 ⊢
  unfold pathParts
  refine List.mem_append_right _ (List.mem_filter.2 ⟨?_, ?_⟩)
  · exact List.mem_map_of_mem String.mk
      (getLastD_mem _ _ (splitSegs_ne_nil path.toList))
  · simp only [Bool.and_eq_true, Bool.not_eq_true', beq_eq_false_iff_ne, ne_eq]
    exact ⟨h1, h2⟩

/-- C8 (counterexample): for the path `.` — whose final component is the
non-empty `.`, with no trailing separator — the basename check changes the
result: `pathlib` drops the `.` segment so no path segment matches the
pattern `.`, yet `os.path.basename` returns `.` and matches it. -/
theorem claim8_counterexample :
    basename "." ≠ "" ∧ ("." : String).toList.getLast? ≠ some '/' ∧
      should_exclude "." ["."] = true ∧ segmentsMatch "." ["."] = false := by
  decide

/-- C8 (amended): for every path whose final component is non-empty and
not `.`, the exclusion predicate returns true iff some path segment
glob-matches some pattern: the basename check never changes the result
there, because the basename is then itself one of the path segments. -/
theorem claim8_basename_redundant (path : String) (pats : List String)
    (h1 : basename path ≠ "") (h2 : basename path ≠ ".") :
    should_exclude path pats = segmentsMatch path pats := by
  unfold should_exclude segmentsMatch
  refine anyCongr ?_
  intro pattern _
  by_cases hb : fnmatchB (basename path) pattern = true
  · have hmem : ((pathParts path).any fun part => fnmatchB part pattern) =
        true :=
      List.any_eq_true.2 ⟨basename path, basename_mem_pathParts path h1 h2, hb⟩
    rw [hmem, hb]
    rfl
  · have hb' : fnmatchB (basename path) pattern = false := by
      cases hx : fnmatchB (basename path) pattern
      · rfl
      · exact absurd hx hb
    rw [hb', Bool.or_false]

/-- Witness for `claim8_basename_redundant` at the path `a/b` against the
pattern set `[b]`. -/
theorem claim8_basename_redundant_witness :
    should_exclude "a/b" ["b"] = segmentsMatch "a/b" ["b"] :=
  claim8_basename_redundant "a/b" ["b"] (by decide) (by decide)

theorem bump_sum : ∀ (m : List (String × Nat)) (k : String),
    sumCounts (bump m k) = sumCounts m + 1
  | [], k => by simp [bump, sumCounts]
  | (a, v) :: rest, k => by
      by_cases h : a = k
      · simp [bump, h, sumCounts, List.sum_cons]
        omega
      · have ih := bump_sum rest k
        simp only [bump, h, if_false, sumCounts, List.map_cons,
          List.sum_cons] at ih ⊢
        omega

theorem bump_keys : ∀ (m : List (String × Nat)) (k : String),
    (bump m k).map Prod.fst =
      if k ∈ m.map Prod.fst then m.map Prod.fst
      else m.map Prod.fst ++ [k]
  | [], k => by simp [bump]
  | (a, v) :: rest, k => by
      by_cases h : a = k
      · subst h
        simp [bump]
      · have ih := bump_keys rest k
        by_cases hm : k ∈ rest.map Prod.fst
        · simp only [bump, h, if_false, List.map_cons, ih, hm, if_true]
          have : k ∈ a :: rest.map Prod.fst := List.mem_cons_of_mem a hm
          simp [this]
        · have hne : ¬ k ∈ (a, v).1 :: rest.map Prod.fst := by
            intro hmem
            rcases List.mem_cons.1 hmem with h1 | h1
            · exact h h1.symm
            · exact hm h1
          simp only [bump, h, if_false, List.map_cons, ih, hm, if_false]
          simp [hne, hm]

theorem addFile_keys : ∀ (m : List (String × List String)) (k fp : String),
    (addFile m k fp).map Prod.fst =
      if k ∈ m.map Prod.fst then m.map Prod.fst
      else m.map Prod.fst ++ [k]
  | [], k, fp => by simp [addFile]
  | (a, fs) :: rest, k, fp => by
      by_cases h : a = k
      · subst h
        simp [addFile]
      · have ih := addFile_keys rest k fp
        by_cases hm : k ∈ rest.map Prod.fst
        · simp only [addFile, h, if_false, List.map_cons, ih, hm, if_true]
          have : k ∈ a :: rest.map Prod.fst := List.mem_cons_of_mem a hm
          simp [this]
        · have hne : ¬ k ∈ (a, fs).1 :: rest.map Prod.fst := by
            intro hmem
            rcases List.mem_cons.1 hmem with h1 | h1
            · exact h h1.symm
            · exact hm h1
          simp only [addFile, h, if_false, List.map_cons, ih, hm, if_false]
          simp [hne, hm]

theorem bump_lookup : ∀ (m : List (String × Nat)) (k L : String),
    (bump m k).lookup L =
      if L = k then some ((m.lookup k).getD 0 + 1) else m.lookup L
  | [], k, L => by simp [bump, lookup_cons]
  | (a, v) :: rest, k, L => by
      by_cases h : a = k
      · subst h
        have hb : bump ((a, v) :: rest) a = (a, v + 1) :: rest := by
          simp [bump]
        have hla : ((a, v) :: rest).lookup a = some v := by
          rw [lookup_cons, if_pos rfl]
        rw [hb, lookup_cons, hla]
        by_cases hL : L = a
        · rw [if_pos hL, if_pos hL]
          rfl
        · rw [if_neg hL, if_neg hL, lookup_cons, if_neg hL]
      · have ih := bump_lookup rest k L
        have hb : bump ((a, v) :: rest) k = (a, v) :: bump rest k := by
          simp [bump, h]
        have hka : ((a, v) :: rest).lookup k = rest.lookup k := by
          rw [lookup_cons, if_neg fun hc => h hc.symm]
        rw [hb, lookup_cons, ih, hka, lookup_cons]
        by_cases hL : L = a
        · subst hL
          rw [if_pos rfl, if_neg h, if_pos rfl]
        · rw [if_neg hL]
          by_cases hLk : L = k
          · rw [if_pos hLk, if_pos hLk]
          · rw [if_neg hLk, if_neg hLk, if_neg hL]

theorem addFile_lookup : ∀ (m : List (String × List String)) (k fp L : String),
    (addFile m k fp).lookup L =
      if L = k then some ((m.lookup k).getD [] ++ [fp]) else m.lookup L
  | [], k, fp, L => by simp [addFile, lookup_cons]
  | (a, fs) :: rest, k, fp, L => by
      by_cases h : a = k
      · subst h
        have hb : addFile ((a, fs) :: rest) a fp = (a, fs ++ [fp]) :: rest := by
          simp [addFile]
        have hla : ((a, fs) :: rest).lookup a = some fs := by
          rw [lookup_cons, if_pos rfl]
        rw [hb, lookup_cons, hla]
        by_cases hL : L = a
        · rw [if_pos hL, if_pos hL]
          rfl
        · rw [if_neg hL, if_neg hL, lookup_cons, if_neg hL]
      · have ih := addFile_lookup rest k fp L
        have hb : addFile ((a, fs) :: rest) k fp =
            (a, fs) :: addFile rest k fp := by
          simp [addFile, h]
        have hka : ((a, fs) :: rest).lookup k = rest.lookup k := by
          rw [lookup_cons, if_neg fun hc => h hc.symm]
        rw [hb, lookup_cons, ih, hka, lookup_cons]
        by_cases hL : L = a
        · subst hL
          rw [if_pos rfl, if_neg h, if_pos rfl]
        · rw [if_neg hL]
          by_cases hLk : L = k
          · rw [if_pos hLk, if_pos hLk]
          · rw [if_neg hLk, if_neg hLk, if_neg hL]

/-- One file step preserves the language-count invariant. -/
theorem langFile_inv (pats : List String) (root : String) (acc : LangAcc)
    (fe : FileEnt) (h : LangInv acc) : LangInv (langFile pats root acc fe) := by
  obtain ⟨hsum, hkeys, hlook⟩ := h
  simp only [langFile]
  cases hexc : should_exclude (pathJoin root fe.name) pats
  · simp only [Bool.false_eq_true, if_false]
    cases hl : LANGUAGE_MAP.lookup (lowerExt fe.name) with
    | none => exact ⟨hsum, hkeys, hlook⟩
    | some lang =>
        refine ⟨?_, ?_, ?_⟩
        · show acc.processed + 1 = sumCounts (bump acc.counts lang)
          rw [bump_sum, hsum]
        · show (bump acc.counts lang).map Prod.fst =
            (addFile acc.filesBy lang (pathJoin root fe.name)).map Prod.fst
          rw [bump_keys, addFile_keys, hkeys]
        · intro L
          show (bump acc.counts lang).lookup L =
            ((addFile acc.filesBy lang (pathJoin root fe.name)).lookup L).map
              List.length
          rw [bump_lookup, addFile_lookup]
          by_cases hL : L = lang
          · rw [if_pos hL, if_pos hL, hlook lang]
            cases hfb : acc.filesBy.lookup lang <;>
              simp [Option.getD, List.length_append]
          · rw [if_neg hL, if_neg hL, hlook L]
  · simp only [if_true]
    exact ⟨hsum, hkeys, hlook⟩

/-- The file loop preserves the language-count invariant. -/
theorem foldl_langFile_inv (pats : List String) (root : String) :
    ∀ (files : List FileEnt) (acc : LangAcc), LangInv acc →
      LangInv (files.foldl (langFile pats root) acc)
  | [], _, h => h
  | fe :: rest, acc, h =>
      foldl_langFile_inv pats root rest _ (langFile_inv pats root acc fe h)

/-- The whole language walk preserves the invariant, at every subtree. -/
theorem langWalk_inv (pats : List String) :
    ∀ (t : Fs) (root : String) (acc : LangAcc), LangInv acc →
      LangInv (langWalk pats t root acc) := by
  intro t
  induction t with
  | dir files subs ih =>
      intro root acc hacc
      simp only [langWalk]
      exact ih root _ (foldl_langFile_inv pats root files acc hacc)
  | dnil =>
      intro root acc hacc
      simpa only [langWalk] using hacc
  | dcons n d rest ihd ihrest =>
      intro root acc hacc
      simp only [langWalk]
      by_cases hexc : should_exclude (pathJoin root n) pats = true
      · rw [if_pos hexc]
        exact ihrest root acc hacc
      · rw [if_neg hexc]
        exact ihrest root _ (ihd (pathJoin root n) acc hacc)

/-- C9: the language aggregation maintains, at every file step, through
every subtree, and at return, the invariant that `files_processed` equals
the sum of all language counts, that the counter and recorded-files maps
have the same keys, and that each language's count is the number of file
paths recorded under it. -/
theorem claim9_invariant :
    (∀ pats root acc fe, LangInv acc → LangInv (langFile pats root acc fe)) ∧
      (∀ pats t root acc, LangInv acc →
        LangInv (langWalk pats t root acc)) ∧
      ∀ pats base tree, LangInv (collect_languages pats base tree) :=
  ⟨fun pats root acc fe h => langFile_inv pats root acc fe h,
   fun pats t root acc h => langWalk_inv pats t root acc h,
   fun pats base tree =>
     langWalk_inv pats tree base _ ⟨rfl, rfl, fun _ => rfl⟩⟩

/-- Witness for `claim9_invariant`: one step on the empty accumulator. -/
theorem claim9_invariant_witness :
    LangInv (langFile [] "repo" ⟨[], [], 0, 0⟩ ⟨"x.go", none⟩) :=
  claim9_invariant.1 [] "repo" ⟨[], [], 0, 0⟩ ⟨"x.go", none⟩
    ⟨rfl, rfl, fun _ => rfl⟩

/-! ## Directory pruning (C2) -/

/-- Every file occurrence the walk visits has all the directories on its
chain non-excluded: an excluded ancestor directory means the file is never
visited, at any depth. -/
theorem visited_ancestors (pats : List String) :
    ∀ (t : Fs) (root : String) (ns : List String) (f : String),
      (ns, f) ∈ visitedWalk pats t root →
        ∀ i, i < ns.length →
          should_exclude (chainPath root (ns.take (i + 1))) pats = false := by
  intro t
  induction t with
  | dir files subs ih =>
      intro root ns f hmem i hi
      simp only [visitedWalk, List.mem_append] at hmem
      rcases hmem with hmem | hmem
      · obtain ⟨fe, _, heq⟩ := List.mem_map.1 hmem
        have hns : ns = [] := (Prod.mk.injEq _ _ _ _ ▸ heq).1.symm
        rw [hns] at hi
        exact absurd hi (by simp)
      · exact ih root ns f hmem i hi
  | dnil =>
      intro root ns f hmem i hi
      simp [visitedWalk] at hmem
  | dcons n d rest ihd ihrest =>
      intro root ns f hmem i hi
      simp only [visitedWalk, List.mem_append] at hmem
      rcases hmem with hmem | hmem
      · by_cases hexc : should_exclude (pathJoin root n) pats = true
        · rw [if_pos hexc] at hmem
          simp at hmem
        · rw [if_neg hexc] at hmem
          obtain ⟨⟨ns', f'⟩, hmem', heq⟩ := List.mem_map.1 hmem
          have hns : ns = n :: ns' := (Prod.mk.injEq _ _ _ _ ▸ heq).1.symm
          subst hns
          cases i with
          | zero =>
              have h0 : chainPath root ((n :: ns').take 1) =
                  pathJoin root n := rfl
              rw [h0]
              cases hb : should_exclude (pathJoin root n) pats
              · rfl
              · exact absurd hb hexc
          | succ j =>
              have hstep : chainPath root ((n :: ns').take (j + 2)) =
                  chainPath (pathJoin root n) (ns'.take (j + 1)) := rfl
              rw [hstep]
              have hf : f' = f := (Prod.mk.injEq _ _ _ _ ▸ heq).2
              rw [hf] at hmem'
              exact ihd (pathJoin root n) ns' f hmem' j (by simpa using hi)
      · exact ihrest root ns f hmem i hi

/-- The file-loop step changes `processed + skipped` by at most one per
examined file. -/
theorem wordFile_counter (pats : List String) (root : String) (acc : WordAcc)
    (fe : FileEnt) :
    (wordFile pats root acc fe).processed +
        (wordFile pats root acc fe).skipped ≤
      acc.processed + acc.skipped + 1 := by
  simp only [wordFile]
  split
  · simp
    omega
  · split
    · omega
    · split
      · simp
        omega
      · omega

/-- Over a file list, the counters grow by at most the number of files. -/
theorem foldl_wordFile_counter (pats : List String) (root : String) :
    ∀ (files : List FileEnt) (acc : WordAcc),
      (files.foldl (wordFile pats root) acc).processed +
          (files.foldl (wordFile pats root) acc).skipped ≤
        acc.processed + acc.skipped + files.length
  | [], acc => by simp
  | fe :: rest, acc => by
      have h1 := foldl_wordFile_counter pats root rest
        (wordFile pats root acc fe)
      have h2 := wordFile_counter pats root acc fe
      simp only [List.foldl_cons, List.length_cons]
      omega

/-- The `processed + skipped` totals of the word walk are bounded by the
number of visited file occurrences: files that are never visited are
counted in neither total. -/
theorem wordsWalk_counter (pats : List String) :
    ∀ (t : Fs) (root : String) (acc : WordAcc),
      (wordsWalk pats t root acc).processed +
          (wordsWalk pats t root acc).skipped ≤
        acc.processed + acc.skipped + (visitedWalk pats t root).length := by
  intro t
  induction t with
  | dir files subs ih =>
      intro root acc
      simp only [wordsWalk, visitedWalk, List.length_append, List.length_map]
      have h1 := ih root (files.foldl (wordFile pats root) acc)
      have h2 := foldl_wordFile_counter pats root files acc
      omega
  | dnil =>
      intro root acc
      simp [wordsWalk, visitedWalk]
  | dcons n d rest ihd ihrest =>
      intro root acc
      simp only [wordsWalk, visitedWalk]
      by_cases hexc : should_exclude (pathJoin root n) pats = true
      · rw [if_pos hexc, if_pos hexc]
        have h1 := ihrest root acc
        simp only [List.nil_append]
        omega
      · rw [if_neg hexc, if_neg hexc]
        have h1 := ihrest root (wordsWalk pats d (pathJoin root n) acc)
        have h2 := ihd (pathJoin root n) acc
        simp only [List.length_append, List.length_map]
        omega

/-- C2: (a) a visited file has every ancestor directory on its chain
non-excluded — equivalently, under an excluded ancestor no file is ever
visited; (b) an excluded subdirectory is not descended into: both walks and
the visited list are exactly those of the tree without it, so nothing below
it reaches the words, the language counts, or the processed/skipped
totals; (c) the counters only ever count visited files. -/
theorem claim2_pruning :
    (∀ pats t root ns f, (ns, f) ∈ visitedWalk pats t root →
        ∀ i, i < ns.length →
          should_exclude (chainPath root (ns.take (i + 1))) pats = false) ∧
      (∀ pats root n d rest,
        should_exclude (pathJoin root n) pats = true →
          (∀ acc, wordsWalk pats (Fs.dcons n d rest) root acc =
            wordsWalk pats rest root acc) ∧
          (∀ acc, langWalk pats (Fs.dcons n d rest) root acc =
            langWalk pats rest root acc) ∧
          visitedWalk pats (Fs.dcons n d rest) root =
            visitedWalk pats rest root) ∧
      ∀ pats t root acc,
        (wordsWalk pats t root acc).processed +
            (wordsWalk pats t root acc).skipped ≤
          acc.processed + acc.skipped + (visitedWalk pats t root).length := by
  refine ⟨fun pats t root ns f => visited_ancestors pats t root ns f,
    ?_, fun pats t root acc => wordsWalk_counter pats t root acc⟩
  intro pats root n d rest hexc
  refine ⟨fun acc => ?_, fun acc => ?_, ?_⟩
  · simp [wordsWalk, hexc]
  · simp [langWalk, hexc]
  · simp [visitedWalk, hexc]

/-- Witness for `claim2_pruning`, at the spec's own scenario: with the
pattern `node_modules`, a `node_modules` directory containing `lib.js`
contributes nothing to the walk. -/
theorem claim2_pruning_witness :
    wordsWalk ["node_modules"]
        (Fs.dcons "node_modules"
          (Fs.dir [⟨"lib.js", some ("x".toList)⟩] Fs.dnil) Fs.dnil)
        "repo" ⟨[], 0, 0⟩ =
      wordsWalk ["node_modules"] Fs.dnil "repo" ⟨[], 0, 0⟩ :=
  (claim2_pruning.2.1 ["node_modules"] "repo" "node_modules"
    (Fs.dir [⟨"lib.js", some ("x".toList)⟩] Fs.dnil) Fs.dnil
    (by decide)).1 ⟨[], 0, 0⟩

end Wordcloud
